import Mathlib

/-!
Verification of the djinject runtime resolution engine (src/inject.ts,
src/merge.ts) against its natural-language specification.

The TypeScript source is shallowly embedded:

* a module tree (`MTree`) maps string keys to either nested groups or
  factories; a factory carries its eager flag (the hidden `isEager` symbol
  of `eager`) and a body (`Exp`) covering the factory shapes the claims
  exercise: constants, property-path reads off the context, and `throw` of
  an `Error` or of a non-`Error` value;
* the proxy target object `obj` of `proxify` becomes a cache from
  `(node path, prop)` to an `Entry`: the `requested` sentinel, or a stored
  JS value (`Error` instances stored by the failure path included), with
  absence of a cache entry playing the role of `!(prop in obj)`;
* `resolve`, property reads, factory-body evaluation and
  `initializeEagerServices` become one fuel-indexed interpreter `exec`
  over explicit state `St`; the state additionally records ghost
  instrumentation the spec's claims quantify over: a per-key factory
  invocation counter and a log of the context argument handed to each
  factory invocation;
* `merge` of merge.ts becomes `mergeSrc` (value semantics) and, for the
  mutation claim, `mergeH` over an explicit heap of JS objects, since
  merge.ts writes into its `target` argument in place.
-/

/-- JS runtime values the embedded factories can produce or throw.
`containerRef np` is the proxy created by `proxify` for the module subtree
at key path `np` (the root container is `containerRef []`); `errObj` is an
`Error` instance with its message and optional `cause`. The source only
ever constructs errors via one-argument `new Error(msg)`, so its cause is
absent (`none`). -/
inductive JVal where
  | undefV
  | num (n : Nat)
  | containerRef (np : List String)
  | errObj (msg : String) (cause : Option String)
deriving DecidableEq, Repr

/-- One slot of a proxy's target object `obj`: either the `requested`
sentinel (inject.ts line 19) or a stored value (`obj[prop] = ...`).
A key absent from the cache corresponds to `!(prop in obj)`. -/
inductive Entry where
  | requested
  | stored (v : JVal)
deriving DecidableEq, Repr

/-- Factory bodies. `constI n` is `() => n`; `readPath ps` is
`(ctx) => ctx.p1.p2...`; `throwErr msg` is `() => { throw new Error(msg) }`;
`throwNum n` is `() => { throw n }` (a thrown value that is not an
`instanceof Error`). -/
inductive Exp where
  | constI (n : Nat)
  | readPath (ps : List String)
  | throwErr (msg : String)
  | throwNum (n : Nat)
deriving DecidableEq, Repr

/-- A merged-module tree node: a factory (with its `isEager` tag and body)
or a group (a nested module object, keys in insertion order). -/
inductive MTree where
  | fac (eager : Bool) (body : Exp)
  | grp (es : List (String × MTree))

/-- A module object: its own enumerable keys in insertion order, each with
a factory or nested group. Modelled from the spec: the `keys` helper of the
missing base.ts is `Object.keys`, i.e. exactly these keys in this order,
and `isObj` distinguishes group objects (`grp`) from functions (`fac`). -/
abbrev ModEntries := List (String × MTree)

/-- `eager` of inject.ts: tags a factory with the `isEager` marker, leaving
its behavior unchanged; tagging is idempotent. -/
def eagerF : MTree → MTree
  | .fac _ b => .fac true b
  | t => t

/-- Association-list lookup, first match wins — JS property lookup. -/
def alookup {κ α : Type} [DecidableEq κ] : List (κ × α) → κ → Option α
  | [], _ => none
  | (k', v) :: rest, k => if k = k' then some v else alookup rest k

/-- Association-list assignment — JS `target[key] = v`: overwrite the first
occurrence in place, else append (insertion order preserved). -/
def aset {κ α : Type} [DecidableEq κ] : List (κ × α) → κ → α → List (κ × α)
  | [], k, v => [(k, v)]
  | (k', v') :: rest, k, v =>
      if k = k' then (k', v) :: rest else (k', v') :: aset rest k v

mutual
/-- `merge` of merge.ts, value semantics: fold the source's keys (snapshot,
in order) into the target, assigning `target[key]` per `mergeVal`. The
function is total: the source merge signals no error. -/
def mergeSrc : ModEntries → ModEntries → ModEntries
  | target, [] => target
  | target, (k, sv) :: rest => mergeSrc (aset target k (mergeVal (alookup target k) sv)) rest
termination_by _ s => sizeOf s
decreasing_by
  all_goals simp_wf
  all_goals omega

/-- The per-key assignment of merge.ts line 55: when source and target both
hold an object at the key (`isObj(sourceValue) && isObj(targetValue)`),
merge recursively, otherwise the source value replaces the target value. -/
def mergeVal : Option MTree → MTree → MTree
  | some (.grp tvG), .grp svG => .grp (mergeSrc tvG svG)
  | _, sv => sv
termination_by _ sv => sizeOf sv
decreasing_by
  all_goals simp_wf
end

/-- `modules.reduce(merge, {})` of `inject` (inject.ts line 66). -/
def mergedModule (ms : List ModEntries) : ModEntries :=
  ms.foldl mergeSrc []

/-- The module subtree found by walking key path `np` from the root tree. -/
def subtreeAt : MTree → List String → Option MTree
  | t, [] => some t
  | .grp es, k :: ks =>
      match alookup es k with
      | some c => subtreeAt c ks
      | none => none
  | .fac _ _, _ :: _ => none

/-- The entries of the module object backing the proxy at node path `np`. -/
def entriesAt (root : MTree) (np : List String) : Option ModEntries :=
  match subtreeAt root np with
  | some (.grp es) => some es
  | _ => none

/-- Interpreter state: `cache` is the union of all proxy target objects
(`obj` of `resolve`), keyed by (node path, prop); `proxies` registers each
created proxy with the `container` argument it captured at `proxify` time
(`none` for the root, whose trap falls back to the proxy itself) and its
captured `path` argument (the `parentPath` of its `resolve` calls).
`counts` and `args` are ghost instrumentation: how often each factory
(keyed by its full key path) has been invoked, and which container
(by node path) each invocation received as its argument. -/
structure St where
  cache : List ((List String × String) × Entry)
  proxies : List (List String × (Option (List String) × String))
  counts : List (List String × Nat)
  args : List (List String × List String)
deriving DecidableEq, Repr

/-- Invocation count of the factory at key path `kp`. -/
def countOf (s : St) (kp : List String) : Nat :=
  (alookup s.counts kp).getD 0

/-- `container || proxy` of the trap at node `np`: the captured container
if one was passed to `proxify`, else the proxy itself. -/
def effOf (s : St) (np : List String) : List String :=
  match alookup s.proxies np with
  | some (some c, _) => c
  | _ => np

/-- The `parentPath` captured by the proxy at node `np`. -/
def ppOf (s : St) (np : List String) : String :=
  match alookup s.proxies np with
  | some (_, p) => p
  | none => ""

/-- inject.ts line 107: `(parentPath ? '.' : '') + String(prop)`. -/
def pathOf (s : St) (np : List String) (prop : String) : String :=
  (if ppOf s np ≠ "" then "." else "") ++ prop

/-- The cycle error of inject.ts line 115. -/
def cycleErr (path : String) : JVal :=
  .errObj ("Cycle detected. Please make " ++ path ++
    " lazy. See https://github.com/langium/ginject#cyclic-dependencies") none

/-- The cached-failure error of inject.ts line 111. -/
def failureErr (path : String) : JVal :=
  .errObj ("Construction failure: " ++ path) none

/-- Requests the interpreter `exec` dispatches on: `resolve np prop` is the
source's `resolve(obj, prop, module, container, parentPath)` at the proxy
of node `np`; `getProp v prop` is a JS property read `v[prop]` (the get
trap when `v` is a container proxy); `evalExp ctx e` invokes a factory
body `e` on context `ctx`; `readSteps v ps` chains property reads;
`initList np es` is `initializeEagerServices` walking the module entries
at node path `np`. -/
inductive Req where
  | resolve (np : List String) (prop : String)
  | getProp (v : JVal) (prop : String)
  | evalExp (ctx : JVal) (e : Exp)
  | readSteps (v : JVal) (ps : List String)
  | initList (np : List String) (es : ModEntries)

/-- The state right after `obj[prop] = requested` and the start of the
factory call `value(container)` at node `np` (inject.ts lines 120-122):
the cache slot is marked `requested`, the ghost invocation counter of the
key is bumped and the container handed to the factory is logged. -/
def facCallSt (s : St) (np : List String) (prop : String) : St :=
  { s with cache := aset s.cache (np, prop) .requested,
           counts := aset s.counts (np ++ [prop]) (countOf s (np ++ [prop]) + 1),
           args := s.args ++ [(np ++ [prop], effOf s np)] }

/-- `obj[prop] = <result>` after a factory call finished (line 122 on
success, line 125 on throw, where a thrown non-`Error` is recorded as
`undefined`). -/
def storeSt (s : St) (np : List String) (prop : String) (v : JVal) : St :=
  { s with cache := aset s.cache (np, prop) (.stored v) }

/-- What line 125 stores for a thrown value `e`:
`error instanceof Error ? error : undefined`. -/
def cachedOfThrown : JVal → JVal
  | .errObj m c => .errObj m c
  | _ => .undefV

/-- The state after the group branch of `resolve` (line 122, else arm):
`obj[prop] = requested` then `obj[prop] = proxify(value, container, ...)`,
registering the child proxy with the threaded container and the
`(path ? '.' : '')` parent path. -/
def grpSt (s : St) (np : List String) (prop : String) : St :=
  { s with cache := aset (aset s.cache (np, prop) .requested) (np, prop)
             (.stored (.containerRef (np ++ [prop]))),
           proxies := aset s.proxies (np ++ [prop])
             (some (effOf s np), if pathOf s np prop ≠ "" then "." else "") }

/-- The ghost bookkeeping of an eager call `value(container)` made by
`initializeEagerServices` (line 76): the invocation counter of the key is
bumped and the root container argument is logged; no cache slot is
touched, because the result of the call is discarded. -/
def initCallSt (s : St) (np : List String) (k : String) : St :=
  { s with counts := aset s.counts (np ++ [k]) (countOf s (np ++ [k]) + 1),
           args := s.args ++ [(np ++ [k], [])] }

/-- Fuel-indexed interpreter for the runtime engine of inject.ts. Returns
`none` on fuel exhaustion, `some (.ok v)` for a normal result, and
`some (.error e)` for a thrown JS value, together with the final state.
The `resolve` case mirrors the source line by line: cached `Error`
instances re-throw a fresh construction failure; the `requested` sentinel
throws the cycle error; other cached values return as-is; a factory key is
marked `requested`, its factory invoked with `container || proxy`, the
result (or `Error`/`undefined` on throw) stored; a group key is proxied
recursively, the child capturing the threaded container and the
`(path ? '.' : '')` parent path; a key absent from the module yields
`undefined` without creating a cache entry. -/
def exec : Nat → MTree → Req → St → Option (Except JVal JVal) × St
  | 0, _, _, s => (none, s)
  | n + 1, root, req, s =>
    match req with
    | .resolve np prop =>
      match alookup s.cache (np, prop) with
      | some (.stored (.errObj _ _)) => (some (.error (failureErr (pathOf s np prop))), s)
      | some .requested => (some (.error (cycleErr (pathOf s np prop))), s)
      | some (.stored v) => (some (.ok v), s)
      | none =>
        match alookup ((entriesAt root np).getD []) prop with
        | none => (some (.ok .undefV), s)
        | some (.fac _ body) =>
          match exec n root (.evalExp (.containerRef (effOf s np)) body) (facCallSt s np prop) with
          | (some (.ok v), s2) => (some (.ok v), storeSt s2 np prop v)
          | (some (.error e), s2) => (some (.error e), storeSt s2 np prop (cachedOfThrown e))
          | (none, s2) => (none, s2)
        | some (.grp _) =>
          (some (.ok (.containerRef (np ++ [prop]))), grpSt s np prop)
    | .getProp v prop =>
      match v with
      | .containerRef np => exec n root (.resolve np prop) s
      | .undefV =>
          (some (.error (.errObj ("TypeError: Cannot read properties of undefined (reading " ++ prop ++ ")") none)), s)
      | _ => (some (.ok .undefV), s)
    | .evalExp ctx e =>
      match e with
      | .constI m => (some (.ok (.num m)), s)
      | .readPath ps => exec n root (.readSteps ctx ps) s
      | .throwErr msg => (some (.error (.errObj msg none)), s)
      | .throwNum m => (some (.error (.num m)), s)
    | .readSteps v ps =>
      match ps with
      | [] => (some (.ok v), s)
      | p :: rest =>
        match exec n root (.getProp v p) s with
        | (some (.ok v'), s') => exec n root (.readSteps v' rest) s'
        | other => other
    | .initList np es =>
      match es with
      | [] => (some (.ok .undefV), s)
      | (k, t) :: rest =>
        match t with
        | .fac eg body =>
          if eg then
            match exec n root (.evalExp (.containerRef []) body) (initCallSt s np k) with
            | (some (.ok _), s') => exec n root (.initList np rest) s'
            | (some (.error e), s') => (some (.error e), s')
            | (none, s') => (none, s')
          else exec n root (.initList np rest) s
        | .grp sub =>
          match exec n root (.initList (np ++ [k]) sub) s with
          | (some (.ok _), s') => exec n root (.initList np rest) s'
          | other => other

/-- The state a fresh `inject` call starts from: empty caches and the root
proxy registered with no captured container (`proxify(module)`) and an
undefined `path`. -/
def injectSt0 : St :=
  { cache := [], proxies := [([], (none, ""))], counts := [], args := [] }

/-- `inject(...modules)`: merge the modules, build the root proxy, run
`initializeEagerServices(module, container)`. The returned container is
`containerRef []`; the result records whether eager initialization threw,
and the state after it. -/
def injectRun (fuel : Nat) (ms : List ModEntries) : Option (Except JVal JVal) × St :=
  let m := mergedModule ms
  exec fuel (.grp m) (.initList [] m) injectSt0

/-- A caller reading the property path `ps` off the root container. -/
def readTop (fuel : Nat) (m : ModEntries) (ps : List String) (s : St) :
    Option (Except JVal JVal) × St :=
  exec fuel (.grp m) (.readSteps (.containerRef []) ps) s

/-- A sequence of caller reads, keeping only the evolving state. -/
def runReads (fuel : Nat) (m : ModEntries) (ops : List (List String)) (s : St) : St :=
  ops.foldl (fun st ps => (readTop fuel m ps st).2) s

/-- `Object.keys` / `Reflect.ownKeys` of a module object. Modelled from the
spec: the missing base.ts `keys` helper lists a module's own keys in
insertion order. -/
def keysOf (es : ModEntries) : List String := es.map Prod.fst

/-- The `ownKeys` proxy trap (inject.ts line 89): `Reflect.ownKeys(module)`.
It reads only the module, leaving the state untouched. -/
def ownKeysTrap (m : ModEntries) (s : St) : List String × St := (keysOf m, s)

/-- The `has` proxy trap (inject.ts line 88): `prop in module`. -/
def hasTrap (m : ModEntries) (prop : String) (s : St) : Bool × St :=
  ((keysOf m).contains prop, s)

/-- The `getOwnPropertyDescriptor` trap (inject.ts line 87) applied to each
own key in turn, as the for..in / `Object.keys` enumeration protocol does:
each key is resolved first, then its descriptor read off the target; a key
is listed when the target now holds it. A throw from `resolve` propagates
out of the enumeration. -/
def forInAux (fuel : Nat) (root : MTree) : List String → St → Option (Except JVal (List String)) × St
  | [], s => (some (.ok []), s)
  | k :: ks, s =>
    match exec fuel root (.resolve [] k) s with
    | (some (.ok _), s') =>
      let hasDesc := (alookup s'.cache ([], k)).isSome
      match forInAux fuel root ks s' with
      | (some (.ok rest), s'') => (some (.ok (if hasDesc then k :: rest else rest)), s'')
      | other => other
    | (some (.error e), s') => (some (.error e), s')
    | (none, s') => (none, s')

/-- for..in-style enumeration of the root container's keys. -/
def forInKeys (fuel : Nat) (m : ModEntries) (s : St) : Option (Except JVal (List String)) × St :=
  forInAux fuel (.grp m) (keysOf m) s

mutual
/-- No factory anywhere in this tree carries the eager tag. -/
def noEagerT : MTree → Bool
  | .fac e _ => !e
  | .grp es => noEagerL es
/-- No factory anywhere in these module entries carries the eager tag. -/
def noEagerL : ModEntries → Bool
  | [] => true
  | (_, t) :: rest => noEagerT t && noEagerL rest
end

/-- A JS value in the object-identity model of merge.ts: a function leaf
(opaque, identified by a tag) or a reference to a heap object. -/
inductive HVal where
  | fn (id : Nat)
  | ref (a : Nat)
deriving DecidableEq, Repr

/-- A JS object: own enumerable keys in insertion order. -/
abbrev HObj := List (String × HVal)

/-- The object heap: addresses to objects. -/
abbrev Heap := List (Nat × HObj)

/-- `target[key] = v` on the heap object at address `a`. -/
def heapSet (h : Heap) (a : Nat) (k : String) (v : HVal) : Heap :=
  match alookup h a with
  | some es => aset h a (aset es k v)
  | none => h

/-- `Object.keys` of the heap object at `a`. -/
def objKeys (h : Heap) (a : Nat) : List String :=
  ((alookup h a).getD []).map Prod.fst

/-- `merge(target, source)` of merge.ts with in-place object mutation:
iterate the snapshot of the source's keys; at each key, if both the
(live-read) source and target values are objects (`isObj` both, i.e. both
are references), recurse into them, otherwise write the source value into
the target object. Fuel-indexed; `none` means fuel ran out. -/
def mergeHKeys : Nat → Heap → Nat → Nat → List String → Option Heap
  | 0, _, _, _, _ => none
  | _ + 1, h, _, _, [] => some h
  | n + 1, h, t, sa, k :: ks =>
    let sv := (alookup h sa).bind (fun es => alookup es k)
    let tv := (alookup h t).bind (fun es => alookup es k)
    match sv, tv with
    | some (.ref sc), some (.ref tc) =>
      match mergeHKeys n h tc sc (objKeys h sc) with
      | some h' => mergeHKeys n h' t sa ks
      | none => none
    | some v, _ => mergeHKeys n (heapSet h t k v) t sa ks
    | none, _ => mergeHKeys n h t sa ks

/-- `merge(target, source)` entry point on the heap. -/
def mergeHeap (fuel : Nat) (h : Heap) (t sa : Nat) : Option Heap :=
  mergeHKeys fuel h t sa (objKeys h sa)

/-- The merge phase of `inject`: `modules.reduce(merge, {})` with `acc`
the address of the freshly allocated empty accumulator object. -/
def injectMergeHeap (fuel : Nat) (h : Heap) (acc : Nat) (ms : List Nat) : Option Heap :=
  ms.foldl (fun oh m => oh.bind (fun h' => mergeHeap fuel h' acc m)) (some h)

/-- Whether a request is the eager-initialization walk (which bumps
invocation counters without consulting the cache). -/
def isInitReq : Req → Bool
  | .initList _ _ => true
  | _ => false

/-- A container reference in play always denotes an already-created
(registered) proxy. -/
def RefReg (s : St) (v : JVal) : Prop :=
  ∀ np, v = .containerRef np → (alookup s.proxies np).isSome

/-- Container-threading invariant: every created proxy captured the root
container (or is the root itself, whose trap falls back to the proxy), the
root proxy exists, every cached value that is a proxy is registered, and
every factory invocation so far received the root container. -/
def InvSt (s : St) : Prop :=
  (∀ np cap pp, alookup s.proxies np = some (cap, pp) → cap.getD np = ([] : List String))
  ∧ (alookup s.proxies []).isSome
  ∧ (∀ key v, alookup s.cache key = some (.stored v) → RefReg s v)
  ∧ (∀ pr ∈ s.args, pr.2 = ([] : List String))

/-- Requests only mention proxies that exist. -/
def ReqOK (s : St) : Req → Prop
  | .resolve np _ => (alookup s.proxies np).isSome
  | .getProp v _ => RefReg s v
  | .evalExp ctx _ => RefReg s ctx
  | .readSteps v _ => RefReg s v
  | .initList _ _ => True

deriving instance DecidableEq for Except

/-- The `cause` carried by a thrown `Error`, if the outcome was a throw of
an `Error` instance. -/
def thrownCause : Option (Except JVal JVal) → Option String
  | some (.error (.errObj _ c)) => c
  | _ => none

/-- Concrete module for the laziness claim: an eager factory that reads
the non-eager sibling `q` through the context,
`{p: eager((ctx) => ctx.q), q: () => 1}`. -/
def c1Mod : ModEntries :=
  [("p", eagerF (.fac false (.readPath ["q"]))), ("q", .fac false (.constI 1))]

/-- `{q: () => 1}`: a single non-eager factory. -/
def cLazyMod : ModEntries := [("q", MTree.fac false (.constI 1))]

/-- Concrete module for the eagerness claim:
`{p: eager(() => 1), q: () => 2}`. -/
def c3Mod : ModEntries :=
  [("p", eagerF (.fac false (.constI 1))), ("q", .fac false (.constI 2))]

/-- The cycle module of the spec: `{a: (ctx) => ctx.b, b: (ctx) => ctx.a}`. -/
def c4Mod : ModEntries :=
  [("a", .fac false (.readPath ["b"])), ("b", .fac false (.readPath ["a"]))]

/-- `{a: () => { throw new Error('boom') }}`. -/
def c5Mod : ModEntries := [("a", .fac false (.throwErr "boom"))]

/-- The enumeration module of the spec:
`{a: () => { throw new Error('boom') }, b: () => 1}`. -/
def c6Mod : ModEntries :=
  [("a", .fac false (.throwErr "boom")), ("b", .fac false (.constI 1))]

/-- A factory two groups deep that depends on a root-level key:
`{g: {h: {p: (ctx) => ctx.q}}, q: () => 5}`. -/
def c7Mod : ModEntries :=
  [("g", .grp [("h", .grp [("p", .fac false (.readPath ["q"]))])]),
   ("q", .fac false (.constI 5))]

/-- A nested failing factory: `{b: {c: () => { throw new Error('boom') }}}`. -/
def c9Mod : ModEntries := [("b", .grp [("c", .fac false (.throwErr "boom"))])]

/-- `{a: () => { throw 7 }}`: the thrown value is not an `Error`. -/
def c10Mod : ModEntries := [("a", .fac false (.throwNum 7))]

/-- Heap for the mutation claim: address 0 is the fresh `{}` accumulator of
`inject`; address 1 is `m1 = {a: {x: f10}}` whose group lives at address 2;
address 3 is `m2 = {a: {y: f11}}` whose group lives at address 4. -/
def c8Heap : Heap :=
  [(0, []), (1, [("a", .ref 2)]), (2, [("x", .fn 10)]),
   (3, [("a", .ref 4)]), (4, [("y", .fn 11)])]

/-- Target module for the merge claim:
`{h: () => 1, g: {x: () => 1}, only: () => 3}`. -/
def c2T : ModEntries :=
  [("h", .fac false (.constI 1)), ("g", .grp [("x", .fac false (.constI 1))]),
   ("only", .fac false (.constI 3))]

/-- Source module for the merge claim: `{h: () => 2, g: {y: () => 2}}`. -/
def c2S : ModEntries :=
  [("h", .fac false (.constI 2)), ("g", .grp [("y", .fac false (.constI 2))])]

/-! ### Association-list and bookkeeping lemmas -/

theorem alookup_aset {κ α : Type} [DecidableEq κ] (l : List (κ × α)) (k : κ) (v : α) (k' : κ) :
    alookup (aset l k v) k' = if k' = k then some v else alookup l k' := by
  induction l with
  | nil => by_cases h : k' = k <;> simp [aset, alookup, h]
  | cons hd tl ih =>
    obtain ⟨k0, v0⟩ := hd
    by_cases h1 : k = k0
    · subst h1
      by_cases h2 : k' = k <;> simp [aset, alookup, h2]
    · by_cases h2 : k' = k0
      · subst h2
        have h3 : ¬(k' = k) := fun h => h1 (h ▸ rfl)
        simp [aset, h1, alookup, h3]
      · simp [aset, h1, alookup, h2, ih]

theorem alookup_aset_isSome {κ α : Type} [DecidableEq κ] (l : List (κ × α)) (k : κ) (v : α)
    (k' : κ) (h : (alookup l k').isSome) : (alookup (aset l k v) k').isSome := by
  rw [alookup_aset]
  by_cases h2 : k' = k <;> simp [h2, h]

theorem append_singleton_inj {α : Type} {l1 l2 : List α} {a b : α}
    (h : l1 ++ [a] = l2 ++ [b]) : l1 = l2 ∧ a = b := by
  have h2 := congrArg List.reverse h
  simp only [List.reverse_append, List.reverse_cons, List.reverse_nil, List.nil_append,
    List.cons_append, List.cons.injEq] at h2
  refine ⟨?_, h2.1⟩
  have := congrArg List.reverse h2.2
  simpa using this

/-- Frame lemma for caller-triggered execution (everything except the
eager-initialization walk): a cache slot once present stays present, and
the invocation counter of a key whose cache slot is already present never
moves — `resolve` only invokes the factory of a key whose slot is absent. -/
theorem exec_frame (n : Nat) : ∀ (root : MTree) (req : Req) (s : St), isInitReq req = false →
    (∀ key, (alookup s.cache key).isSome → (alookup (exec n root req s).2.cache key).isSome)
  ∧ (∀ np prop, (alookup s.cache (np, prop)).isSome →
      countOf (exec n root req s).2 (np ++ [prop]) = countOf s (np ++ [prop])) := by
  induction n with
  | zero => intro root req s _; simp [exec]
  | succ n ih =>
    intro root req s hreq
    cases req with
    | initList np es => simp [isInitReq] at hreq
    | resolve np prop =>
      cases hc : alookup s.cache (np, prop) with
      | some e =>
        cases e with
        | requested => simp [exec, hc]
        | stored v => cases v <;> simp [exec, hc]
      | none =>
        cases hm : alookup ((entriesAt root np).getD []) prop with
        | none => simp [exec, hc, hm]
        | some t =>
          cases t with
          | grp es =>
            simp only [exec, hc, hm]
            constructor
            · intro key hkey
              simp only [grpSt]
              exact alookup_aset_isSome _ _ _ _ (alookup_aset_isSome _ _ _ _ hkey)
            · intro np' prop' _
              simp [grpSt, countOf]
          | fac eg body =>
            have hfc : isInitReq (.evalExp (.containerRef (effOf s np)) body) = false := rfl
            have hb := ih root (.evalExp (.containerRef (effOf s np)) body) (facCallSt s np prop) hfc
            rcases hbe : exec n root (.evalExp (.containerRef (effOf s np)) body) (facCallSt s np prop)
              with ⟨r2, s2⟩
            rw [hbe] at hb
            simp only [exec, hc, hm, hbe]
            have hmono1 : ∀ key, (alookup s.cache key).isSome → (alookup s2.cache key).isSome := by
              intro key hkey
              exact hb.1 key (by simp only [facCallSt]; exact alookup_aset_isSome _ _ _ _ hkey)
            have hcnt1 : ∀ np' prop', (alookup s.cache (np', prop')).isSome →
                countOf s2 (np' ++ [prop']) = countOf s (np' ++ [prop']) := by
              intro np' prop' hkey
              have hne : (np', prop') ≠ (np, prop) := by
                intro hEq
                rw [hEq] at hkey
                rw [hc] at hkey
                simp at hkey
              have h2 := hb.2 np' prop' (by
                simp only [facCallSt]
                exact alookup_aset_isSome _ _ _ _ hkey)
              rw [h2]
              simp only [facCallSt, countOf]
              rw [alookup_aset]
              have : ¬(np' ++ [prop'] = np ++ [prop]) := by
                intro hap
                exact hne (by
                  obtain ⟨h1, h2⟩ := append_singleton_inj hap
                  simp [h1, h2])
              simp [this]
            cases r2 with
            | none =>
              exact ⟨hmono1, hcnt1⟩
            | some ex =>
              cases ex with
              | ok v =>
                refine ⟨?_, ?_⟩
                · intro key hkey
                  simp only [storeSt]
                  exact alookup_aset_isSome _ _ _ _ (hmono1 key hkey)
                · intro np' prop' hkey
                  simp only [storeSt, countOf]
                  exact hcnt1 np' prop' hkey
              | error e =>
                refine ⟨?_, ?_⟩
                · intro key hkey
                  simp only [storeSt]
                  exact alookup_aset_isSome _ _ _ _ (hmono1 key hkey)
                · intro np' prop' hkey
                  simp only [storeSt, countOf]
                  exact hcnt1 np' prop' hkey
    | getProp v prop =>
      cases v with
      | containerRef np =>
        have h := ih root (.resolve np prop) s rfl
        simp only [exec]
        exact h
      | undefV => simp [exec]
      | num m => simp [exec]
      | errObj m c => simp [exec]
    | evalExp ctx e =>
      cases e with
      | constI m => simp [exec]
      | throwErr msg => simp [exec]
      | throwNum m => simp [exec]
      | readPath ps =>
        have h := ih root (.readSteps ctx ps) s rfl
        simp only [exec]
        exact h
    | readSteps v ps =>
      cases ps with
      | nil => simp [exec]
      | cons p rest =>
        have hg := ih root (.getProp v p) s rfl
        rcases hge : exec n root (.getProp v p) s with ⟨r1, s1⟩
        rw [hge] at hg
        simp only [exec, hge]
        cases r1 with
        | none => exact hg
        | some ex =>
          cases ex with
          | error e => exact hg
          | ok v' =>
            have hr := ih root (.readSteps v' rest) s1 rfl
            refine ⟨?_, ?_⟩
            · intro key hkey
              exact hr.1 key (hg.1 key hkey)
            · intro np' prop' hkey
              rw [hr.2 np' prop' (hg.1 (np', prop') hkey)]
              exact hg.2 np' prop' hkey

/-- Memoization branch of `resolve` (inject.ts lines 108, 117): a cached
non-`Error` value is returned as-is, with no state change and in
particular no factory invocation. -/
theorem exec_resolve_stored (n : Nat) (root : MTree) (np : List String) (prop : String)
    (s : St) (v : JVal) (hv : alookup s.cache (np, prop) = some (.stored v))
    (hne : ∀ m c, v ≠ JVal.errObj m c) :
    exec (n + 1) root (.resolve np prop) s = (some (.ok v), s) := by
  cases v with
  | errObj m c => exact absurd rfl (hne m c)
  | undefV => simp [exec, hv]
  | num m => simp [exec, hv]
  | containerRef q => simp [exec, hv]

/-- Failure-cache branch of `resolve` (inject.ts lines 110-112): a cached
`Error` instance makes the access throw a fresh
`Construction failure: <path>` error (whose cause is absent), with no
state change and no factory invocation. -/
theorem exec_resolve_failed (n : Nat) (root : MTree) (np : List String) (prop : String)
    (s : St) (m : String) (c : Option String)
    (hv : alookup s.cache (np, prop) = some (.stored (.errObj m c))) :
    exec (n + 1) root (.resolve np prop) s = (some (.error (failureErr (pathOf s np prop))), s) := by
  simp [exec, hv]

/-- Cycle branch of `resolve` (inject.ts lines 113-116): observing the
`requested` sentinel throws the cycle error for the key currently being
resolved and changes no state — in particular no cache entry moves. -/
theorem exec_resolve_requested (n : Nat) (root : MTree) (np : List String) (prop : String)
    (s : St) (hv : alookup s.cache (np, prop) = some .requested) :
    exec (n + 1) root (.resolve np prop) s = (some (.error (cycleErr (pathOf s np prop))), s) := by
  simp [exec, hv]

/-- Absent-key branch of `resolve` (inject.ts lines 129-131): a key in
neither the cache nor the module yields `undefined` with no state change. -/
theorem exec_resolve_absent (n : Nat) (root : MTree) (np : List String) (prop : String)
    (s : St) (hc : alookup s.cache (np, prop) = none)
    (hm : alookup ((entriesAt root np).getD []) prop = none) :
    exec (n + 1) root (.resolve np prop) s = (some (.ok .undefV), s) := by
  simp [exec, hc, hm]

/-- First access to a factory key invokes the factory exactly once: the
counter of that key ends exactly one above its starting value, whatever
the factory body does — re-entrant reads of the same key meet the
`requested` sentinel and cannot re-invoke it. -/
theorem exec_resolve_first_count (n : Nat) (root : MTree) (np : List String) (prop : String)
    (s : St) (eg : Bool) (body : Exp)
    (hc : alookup s.cache (np, prop) = none)
    (hm : alookup ((entriesAt root np).getD []) prop = some (.fac eg body)) :
    countOf (exec (n + 1) root (.resolve np prop) s).2 (np ++ [prop])
      = countOf s (np ++ [prop]) + 1 := by
  have hfr := exec_frame n root (.evalExp (.containerRef (effOf s np)) body) (facCallSt s np prop) rfl
  rcases hbe : exec n root (.evalExp (.containerRef (effOf s np)) body) (facCallSt s np prop)
    with ⟨r2, s2⟩
  rw [hbe] at hfr
  have hpres : (alookup (facCallSt s np prop).cache (np, prop)).isSome := by
    simp [facCallSt, alookup_aset]
  have hcnt : countOf s2 (np ++ [prop]) = countOf (facCallSt s np prop) (np ++ [prop]) :=
    hfr.2 np prop hpres
  have hcall : countOf (facCallSt s np prop) (np ++ [prop]) = countOf s (np ++ [prop]) + 1 := by
    simp [facCallSt, countOf, alookup_aset]
  simp only [exec, hc, hm, hbe]
  cases r2 with
  | none => simpa [hcall] using hcnt
  | some ex =>
    cases ex with
    | ok v => simp only [storeSt, countOf]; rw [← countOf, ← countOf, hcnt, hcall]
    | error e => simp only [storeSt, countOf]; rw [← countOf, ← countOf, hcnt, hcall]

/-- Successful first access: the factory result is stored and returned. -/
theorem exec_resolve_first_ok (n : Nat) (root : MTree) (np : List String) (prop : String)
    (s s2 : St) (eg : Bool) (body : Exp) (v : JVal)
    (hc : alookup s.cache (np, prop) = none)
    (hm : alookup ((entriesAt root np).getD []) prop = some (.fac eg body))
    (hbe : exec n root (.evalExp (.containerRef (effOf s np)) body) (facCallSt s np prop)
      = (some (.ok v), s2)) :
    exec (n + 1) root (.resolve np prop) s = (some (.ok v), storeSt s2 np prop v) := by
  simp [exec, hc, hm, hbe]

/-- Throwing first access: the thrown value propagates unchanged, and the
cache records the `Error` instance itself, or `undefined` when the thrown
value is not an `Error` (inject.ts line 125). -/
theorem exec_resolve_first_throw (n : Nat) (root : MTree) (np : List String) (prop : String)
    (s s2 : St) (eg : Bool) (body : Exp) (e : JVal)
    (hc : alookup s.cache (np, prop) = none)
    (hm : alookup ((entriesAt root np).getD []) prop = some (.fac eg body))
    (hbe : exec n root (.evalExp (.containerRef (effOf s np)) body) (facCallSt s np prop)
      = (some (.error e), s2)) :
    exec (n + 1) root (.resolve np prop) s
      = (some (.error e), storeSt s2 np prop (cachedOfThrown e)) := by
  simp [exec, hc, hm, hbe]

/-- `initializeEagerServices` on a module tree with no eager factory does
nothing: it invokes no factory and leaves the state untouched. -/
theorem init_noEager (n : Nat) : ∀ (root : MTree) (np : List String) (es : ModEntries),
    noEagerL es = true → ∀ s : St, (exec n root (.initList np es) s).2 = s := by
  induction n with
  | zero => intro root np es _ s; simp [exec]
  | succ n ih =>
    intro root np es hne s
    cases es with
    | nil => simp [exec]
    | cons hd rest =>
      obtain ⟨k, t⟩ := hd
      cases t with
      | fac eg body =>
        have h1 : (!eg) = true ∧ noEagerL rest = true := by
          simpa [noEagerL, noEagerT] using hne
        have heg : eg = false := by simpa using h1.1
        subst heg
        simpa [exec] using ih root np rest h1.2 s
      | grp sub =>
        have h1 : noEagerL sub = true ∧ noEagerL rest = true := by
          simpa [noEagerL, noEagerT] using hne
        rcases hs : exec n root (.initList (np ++ [k]) sub) s with ⟨r1, s1⟩
        have hs1 : s1 = s := by
          have := ih root (np ++ [k]) sub h1.1 s
          rw [hs] at this
          exact this
        have hs' : exec n root (.initList (np ++ [k]) sub) s = (r1, s) := by rw [hs, hs1]
        simp only [exec, hs']
        cases r1 with
        | none => rfl
        | some ex =>
          cases ex with
          | error e => rfl
          | ok v => exact ih root np rest h1.2 s

/-- Under the threading invariant, `container || proxy` at any created
proxy is the root container. -/
theorem effOf_root (s : St)
    (h1 : ∀ np cap pp, alookup s.proxies np = some (cap, pp) → cap.getD np = ([] : List String))
    (np : List String) (h2 : (alookup s.proxies np).isSome) : effOf s np = [] := by
  rcases ho : alookup s.proxies np with _ | ⟨cap, pp⟩
  · rw [ho] at h2; simp at h2
  · have hcap := h1 np cap pp ho
    cases cap with
    | none =>
      simp only [Option.getD_none] at hcap
      subst hcap
      simp [effOf, ho]
    | some c =>
      simp only [Option.getD_some] at hcap
      simp [effOf, ho, hcap]

/-- A thrown value recorded by line 125 is an `Error` or `undefined`,
never a proxy. -/
theorem cachedOfThrown_not_ref (e : JVal) (q : List String) :
    cachedOfThrown e ≠ .containerRef q := by
  cases e <;> simp [cachedOfThrown]

/-- The main container-threading theorem, by induction on fuel: execution
preserves the invariant, never deletes a proxy registration, and every
normal result that is a proxy is registered. -/
theorem exec_inv (n : Nat) : ∀ (root : MTree) (req : Req) (s : St), InvSt s → ReqOK s req →
    InvSt (exec n root req s).2
  ∧ (∀ np, (alookup s.proxies np).isSome → (alookup (exec n root req s).2.proxies np).isSome)
  ∧ (∀ v, (exec n root req s).1 = some (.ok v) → RefReg (exec n root req s).2 v) := by
  induction n with
  | zero =>
    intro root req s hs _
    refine ⟨hs, fun np h => h, fun v hv => ?_⟩
    simp [exec] at hv
  | succ n ih =>
    intro root req s hs hok
    obtain ⟨h1, h2, h3, h4⟩ := hs
    cases req with
    | resolve np prop =>
      have hreg : (alookup s.proxies np).isSome := hok
      have heff : effOf s np = [] := effOf_root s h1 np hreg
      cases hc : alookup s.cache (np, prop) with
      | some e =>
        cases e with
        | requested =>
          rw [exec_resolve_requested n root np prop s hc]
          exact ⟨⟨h1, h2, h3, h4⟩, fun np' h => h, fun v hv => by simp at hv⟩
        | stored v =>
          cases v with
          | errObj m c =>
            rw [exec_resolve_failed n root np prop s m c hc]
            exact ⟨⟨h1, h2, h3, h4⟩, fun np' h => h, fun v hv => by simp at hv⟩
          | undefV =>
            rw [exec_resolve_stored n root np prop s .undefV hc (by simp)]
            refine ⟨⟨h1, h2, h3, h4⟩, fun np' h => h, fun v hv => ?_⟩
            simp only [Option.some.injEq, Except.ok.injEq] at hv
            rw [← hv]
            intro q hq
            simp at hq
          | num m =>
            rw [exec_resolve_stored n root np prop s (.num m) hc (by simp)]
            refine ⟨⟨h1, h2, h3, h4⟩, fun np' h => h, fun v hv => ?_⟩
            simp only [Option.some.injEq, Except.ok.injEq] at hv
            rw [← hv]
            intro q hq
            simp at hq
          | containerRef q =>
            rw [exec_resolve_stored n root np prop s (.containerRef q) hc (by simp)]
            refine ⟨⟨h1, h2, h3, h4⟩, fun np' h => h, fun v hv => ?_⟩
            simp only [Option.some.injEq, Except.ok.injEq] at hv
            rw [← hv]
            exact h3 (np, prop) (.containerRef q) hc
      | none =>
        cases hm : alookup ((entriesAt root np).getD []) prop with
        | none =>
          rw [exec_resolve_absent n root np prop s hc hm]
          refine ⟨⟨h1, h2, h3, h4⟩, fun np' h => h, fun v hv => ?_⟩
          simp only [Option.some.injEq, Except.ok.injEq] at hv
          rw [← hv]
          intro q hq
          simp at hq
        | some t =>
          cases t with
          | fac eg body =>
            have hinv1 : InvSt (facCallSt s np prop) := by
              refine ⟨h1, h2, ?_, ?_⟩
              · intro key v hkv
                simp only [facCallSt] at hkv
                rw [alookup_aset] at hkv
                by_cases hk : key = (np, prop)
                · simp [hk] at hkv
                · simp only [hk, if_false] at hkv
                  exact h3 key v hkv
              · intro pr hpr
                simp only [facCallSt] at hpr
                rcases List.mem_append.mp hpr with h | h
                · exact h4 pr h
                · simp only [List.mem_singleton] at h
                  rw [h, heff]
            have hokb : ReqOK (facCallSt s np prop)
                (.evalExp (.containerRef (effOf s np)) body) := by
              intro q hq
              rw [heff] at hq
              simp only [JVal.containerRef.injEq] at hq
              rw [← hq]
              exact h2
            have hb := ih root (.evalExp (.containerRef (effOf s np)) body)
              (facCallSt s np prop) hinv1 hokb
            rcases hbe : exec n root (.evalExp (.containerRef (effOf s np)) body)
              (facCallSt s np prop) with ⟨r2, s2⟩
            rw [hbe] at hb
            obtain ⟨hbI, hbM, hbR⟩ := hb
            obtain ⟨g1, g2, g3, g4⟩ := hbI
            simp only [exec, hc, hm, hbe]
            cases r2 with
            | none => exact ⟨⟨g1, g2, g3, g4⟩, fun np' h => hbM np' h, fun v hv => by simp at hv⟩
            | some ex =>
              cases ex with
              | ok v =>
                have hrv : RefReg s2 v := hbR v rfl
                refine ⟨⟨g1, g2, ?_, g4⟩, fun np' h => hbM np' h, fun v' hv' => ?_⟩
                · intro key v' hkv
                  simp only [storeSt] at hkv
                  rw [alookup_aset] at hkv
                  by_cases hk : key = (np, prop)
                  · simp only [hk, if_true, Option.some.injEq, Entry.stored.injEq] at hkv
                    rw [← hkv]
                    exact hrv
                  · simp only [hk, if_false] at hkv
                    exact g3 key v' hkv
                · simp only [Option.some.injEq, Except.ok.injEq] at hv'
                  rw [← hv']
                  exact hrv
              | error e =>
                refine ⟨⟨g1, g2, ?_, g4⟩, fun np' h => hbM np' h, fun v' hv' => by simp at hv'⟩
                intro key v' hkv
                simp only [storeSt] at hkv
                rw [alookup_aset] at hkv
                by_cases hk : key = (np, prop)
                · simp only [hk, if_true, Option.some.injEq, Entry.stored.injEq] at hkv
                  rw [← hkv]
                  intro q hq
                  exact absurd hq (cachedOfThrown_not_ref e q)
                · simp only [hk, if_false] at hkv
                  exact g3 key v' hkv
          | grp ges =>
            simp only [exec, hc, hm]
            have hmono : ∀ np', (alookup s.proxies np').isSome →
                (alookup (grpSt s np prop).proxies np').isSome := by
              intro np' h
              simp only [grpSt]
              exact alookup_aset_isSome _ _ _ _ h
            have hchildReg : (alookup (grpSt s np prop).proxies (np ++ [prop])).isSome := by
              simp [grpSt, alookup_aset]
            refine ⟨⟨?_, ?_, ?_, h4⟩, hmono, fun v hv => ?_⟩
            · intro q cap pp hq
              simp only [grpSt] at hq
              rw [alookup_aset] at hq
              by_cases hk : q = np ++ [prop]
              · simp only [hk, if_true, Option.some.injEq, Prod.mk.injEq] at hq
                rw [← hq.1, heff]
                simp
              · simp only [hk, if_false] at hq
                exact h1 q cap pp hq
            · exact hmono [] h2
            · intro key v hkv
              simp only [grpSt] at hkv
              rw [alookup_aset] at hkv
              by_cases hk : key = (np, prop)
              · simp only [hk, if_true, Option.some.injEq, Entry.stored.injEq] at hkv
                rw [← hkv]
                intro q hq
                simp only [JVal.containerRef.injEq] at hq
                rw [← hq]
                exact hchildReg
              · simp only [hk, if_false] at hkv
                rw [alookup_aset] at hkv
                simp only [hk, if_false] at hkv
                intro q hq
                exact hmono q (h3 key v hkv q hq)
            · simp only [Option.some.injEq, Except.ok.injEq] at hv
              rw [← hv]
              intro q hq
              simp only [JVal.containerRef.injEq] at hq
              rw [← hq]
              exact hchildReg
    | getProp v prop =>
      cases v with
      | containerRef np =>
        simp only [exec]
        exact ih root (.resolve np prop) s ⟨h1, h2, h3, h4⟩ (hok np rfl)
      | undefV =>
        simp only [exec]
        exact ⟨⟨h1, h2, h3, h4⟩, fun np' h => h, fun v hv => by simp at hv⟩
      | num m =>
        simp only [exec]
        refine ⟨⟨h1, h2, h3, h4⟩, fun np' h => h, fun v hv => ?_⟩
        simp only [Option.some.injEq, Except.ok.injEq] at hv
        rw [← hv]
        intro q hq
        simp at hq
      | errObj m c =>
        simp only [exec]
        refine ⟨⟨h1, h2, h3, h4⟩, fun np' h => h, fun v hv => ?_⟩
        simp only [Option.some.injEq, Except.ok.injEq] at hv
        rw [← hv]
        intro q hq
        simp at hq
    | evalExp ctx e =>
      cases e with
      | constI m =>
        simp only [exec]
        refine ⟨⟨h1, h2, h3, h4⟩, fun np' h => h, fun v hv => ?_⟩
        simp only [Option.some.injEq, Except.ok.injEq] at hv
        rw [← hv]
        intro q hq
        simp at hq
      | throwErr msg =>
        simp only [exec]
        exact ⟨⟨h1, h2, h3, h4⟩, fun np' h => h, fun v hv => by simp at hv⟩
      | throwNum m =>
        simp only [exec]
        exact ⟨⟨h1, h2, h3, h4⟩, fun np' h => h, fun v hv => by simp at hv⟩
      | readPath ps =>
        simp only [exec]
        exact ih root (.readSteps ctx ps) s ⟨h1, h2, h3, h4⟩ hok
    | readSteps v ps =>
      cases ps with
      | nil =>
        simp only [exec]
        refine ⟨⟨h1, h2, h3, h4⟩, fun np' h => h, fun v' hv' => ?_⟩
        simp only [Option.some.injEq, Except.ok.injEq] at hv'
        rw [← hv']
        exact hok
      | cons p rest =>
        have hg := ih root (.getProp v p) s ⟨h1, h2, h3, h4⟩ hok
        rcases hge : exec n root (.getProp v p) s with ⟨r1, s1⟩
        rw [hge] at hg
        obtain ⟨hgI, hgM, hgR⟩ := hg
        simp only [exec, hge]
        cases r1 with
        | none => exact ⟨hgI, hgM, fun v' hv' => by simp at hv'⟩
        | some ex =>
          cases ex with
          | error e => exact ⟨hgI, hgM, fun v' hv' => by simp at hv'⟩
          | ok v' =>
            have hr := ih root (.readSteps v' rest) s1 hgI (hgR v' rfl)
            refine ⟨hr.1, fun np' h => hr.2.1 np' (hgM np' h), hr.2.2⟩
    | initList np es =>
      cases es with
      | nil =>
        simp only [exec]
        refine ⟨⟨h1, h2, h3, h4⟩, fun np' h => h, fun v hv => ?_⟩
        simp only [Option.some.injEq, Except.ok.injEq] at hv
        rw [← hv]
        intro q hq
        simp at hq
      | cons hd rest =>
        obtain ⟨k, t⟩ := hd
        cases t with
        | fac eg body =>
          cases eg with
          | false =>
            simp only [exec]
            exact ih root (.initList np rest) s ⟨h1, h2, h3, h4⟩ trivial
          | true =>
            have hinv1 : InvSt (initCallSt s np k) := by
              refine ⟨h1, h2, h3, ?_⟩
              intro pr hpr
              simp only [initCallSt] at hpr
              rcases List.mem_append.mp hpr with h | h
              · exact h4 pr h
              · simp only [List.mem_singleton] at h
                rw [h]
            have hokb : ReqOK (initCallSt s np k) (.evalExp (.containerRef []) body) := by
              intro q hq
              simp only [JVal.containerRef.injEq] at hq
              rw [← hq]
              exact h2
            have hb := ih root (.evalExp (.containerRef []) body) (initCallSt s np k) hinv1 hokb
            rcases hbe : exec n root (.evalExp (.containerRef []) body) (initCallSt s np k)
              with ⟨r2, s2⟩
            rw [hbe] at hb
            obtain ⟨hbI, hbM, hbR⟩ := hb
            simp only [exec, hbe]
            cases r2 with
            | none => exact ⟨hbI, hbM, fun v hv => by simp at hv⟩
            | some ex =>
              cases ex with
              | error e => exact ⟨hbI, hbM, fun v hv => by simp at hv⟩
              | ok v0 =>
                have hr := ih root (.initList np rest) s2 hbI trivial
                exact ⟨hr.1, fun np' h => hr.2.1 np' (hbM np' h), hr.2.2⟩
        | grp sub =>
          have hg := ih root (.initList (np ++ [k]) sub) s ⟨h1, h2, h3, h4⟩ trivial
          rcases hge : exec n root (.initList (np ++ [k]) sub) s with ⟨r1, s1⟩
          rw [hge] at hg
          obtain ⟨hgI, hgM, hgR⟩ := hg
          simp only [exec, hge]
          cases r1 with
          | none => exact ⟨hgI, hgM, fun v hv => by simp at hv⟩
          | some ex =>
            cases ex with
            | error e => exact ⟨hgI, hgM, fun v hv => by simp at hv⟩
            | ok v0 =>
              have hr := ih root (.initList np rest) s1 hgI trivial
              exact ⟨hr.1, fun np' h => hr.2.1 np' (hgM np' h), hr.2.2⟩

theorem mergeSrc_nil (t : ModEntries) : mergeSrc t [] = t := by
  simp [mergeSrc]

theorem mergeSrc_cons (t : ModEntries) (k : String) (sv : MTree) (rest : ModEntries) :
    mergeSrc t ((k, sv) :: rest) = mergeSrc (aset t k (mergeVal (alookup t k) sv)) rest := by
  rw [mergeSrc]

theorem alookup_eq_none_of_not_mem {α : Type} (l : List (String × α)) (k : String)
    (h : k ∉ l.map Prod.fst) : alookup l k = none := by
  induction l with
  | nil => simp [alookup]
  | cons hd rest ih =>
    obtain ⟨k1, v1⟩ := hd
    simp only [List.map_cons, List.mem_cons] at h
    push_neg at h
    simp [alookup, h.1, ih h.2]

/-- Per-key characterization of the source merge: the merged object holds,
at every key, exactly what the spec's per-key rule prescribes — later
module wins at a leaf, groups merge recursively, and a key present in only
one side passes through. -/
theorem mergeSrc_lookup (s : ModEntries) : ∀ (t : ModEntries), (keysOf s).Nodup →
    ∀ k, alookup (mergeSrc t s) k =
      match alookup s k with
      | none => alookup t k
      | some sv => some (mergeVal (alookup t k) sv) := by
  induction s with
  | nil =>
    intro t _ k
    simp [mergeSrc_nil, alookup]
  | cons hd rest ih =>
    obtain ⟨k1, sv1⟩ := hd
    intro t hnd k
    have hnd' : k1 ∉ keysOf rest ∧ (keysOf rest).Nodup := by
      simpa [keysOf] using hnd
    rw [mergeSrc_cons, ih (aset t k1 (mergeVal (alookup t k1) sv1)) hnd'.2 k]
    by_cases hk : k = k1
    · subst hk
      have hrest : alookup rest k = none :=
        alookup_eq_none_of_not_mem rest k hnd'.1
      simp [hrest, alookup, alookup_aset]
    · have hs : alookup ((k1, sv1) :: rest) k = alookup rest k := by
        simp [alookup, hk]
      rw [hs]
      cases hr : alookup rest k with
      | none => simp [alookup_aset, hk]
      | some sv => simp [alookup_aset, hk]

/-- The initial `inject` state satisfies the threading invariant. -/
theorem invSt_injectSt0 : InvSt injectSt0 := by
  refine ⟨?_, ?_, ?_, ?_⟩
  · intro np cap pp h
    by_cases hnp : np = []
    · subst hnp
      simp only [injectSt0, alookup, eq_self_iff_true, if_true, Option.some.injEq,
        Prod.mk.injEq] at h
      obtain ⟨h1, h2⟩ := h
      subst h1
      simp
    · simp [injectSt0, alookup, hnp] at h
  · simp [injectSt0, alookup]
  · intro key v h
    simp [injectSt0, alookup] at h
  · intro pr h
    simp [injectSt0] at h

/-- Reading any sequence of property paths preserves the threading
invariant. -/
theorem runReads_invSt (fuel : Nat) (m : ModEntries) :
    ∀ (ops : List (List String)) (s : St), InvSt s → InvSt (runReads fuel m ops s) := by
  intro ops
  induction ops with
  | nil => intro s h; simpa [runReads] using h
  | cons ps rest ih =>
    intro s h
    have hok : ReqOK s (.readSteps (.containerRef []) ps) := by
      intro q hq
      simp only [JVal.containerRef.injEq] at hq
      rw [← hq]
      exact h.2.1
    have h1 : InvSt (readTop fuel m ps s).2 :=
      (exec_inv fuel (.grp m) (.readSteps (.containerRef []) ps) s h hok).1
    simpa [runReads] using ih (readTop fuel m ps s).2 h1

/-! ### Claim theorems -/

/-- C2. Merge determinism: at every key, the object produced by the source
merge holds exactly what the per-key rule prescribes — a key only in one
module passes through; a key in both takes the later (source) module's
entry, except that two groups merge recursively rather than overwriting
the subtree wholesale; and `inject`'s fold makes each later module the
source against everything merged before it. The merge is a total function:
it never signals an error. -/
theorem c2_merge_determinism :
    (∀ (t s : ModEntries), (keysOf s).Nodup →
      ∀ k, alookup (mergeSrc t s) k =
        match alookup s k with
        | none => alookup t k
        | some sv => some (mergeVal (alookup t k) sv))
  ∧ (∀ (ms : List ModEntries) (m : ModEntries),
      mergedModule (ms ++ [m]) = mergeSrc (mergedModule ms) m) := by
  constructor
  · intro t s hnd k
    exact mergeSrc_lookup s t hnd k
  · intro ms m
    simp [mergedModule, List.foldl_append]

/-- Witness for C2 at the concrete pair `c2T`, `c2S`: both modules define
`h` (a leaf, the later wins) and `g` (a group in both, merged
recursively); `only` passes through. -/
theorem c2_merge_determinism_witness :
    (keysOf c2S).Nodup
  ∧ alookup (mergeSrc c2T c2S) "h" =
      (match alookup c2S "h" with
       | none => alookup c2T "h"
       | some sv => some (mergeVal (alookup c2T "h") sv))
  ∧ alookup (mergeSrc c2T c2S) "g" =
      (match alookup c2S "g" with
       | none => alookup c2T "g"
       | some sv => some (mergeVal (alookup c2T "g") sv))
  ∧ alookup (mergeSrc c2T c2S) "only" =
      (match alookup c2S "only" with
       | none => alookup c2T "only"
       | some sv => some (mergeVal (alookup c2T "only") sv)) :=
  ⟨by decide, c2_merge_determinism.1 c2T c2S (by decide) "h",
   c2_merge_determinism.1 c2T c2S (by decide) "g",
   c2_merge_determinism.1 c2T c2S (by decide) "only"⟩

/-- C4. Cycle detection: reading `a` off `inject({a: (ctx) => ctx.b,
b: (ctx) => ctx.a})` throws the cycle error naming `a` and pointing at the
lazy-provider remedy; and, in general, the re-entrant observation of the
`requested` sentinel throws without changing any state — no cache entry
moves. -/
theorem c4_cycle_detection :
    (readTop 20 c4Mod ["a"] (injectRun 20 [c4Mod]).2).1
      = some (.error (.errObj
          ("Cycle detected. Please make a lazy. See https://github.com/langium/ginject#cyclic-dependencies")
          none))
  ∧ (∀ (n : Nat) (root : MTree) (np : List String) (prop : String) (s : St),
      alookup s.cache (np, prop) = some .requested →
      exec (n + 1) root (.resolve np prop) s
        = (some (.error (cycleErr (pathOf s np prop))), s)) := by
  constructor
  · have hm : mergedModule [c4Mod] = c4Mod := by
      simp [mergedModule, c4Mod, mergeSrc_cons, mergeSrc_nil, mergeVal, alookup, aset]
    simp only [injectRun, hm]
    decide
  · intro n root np prop s h
    exact exec_resolve_requested n root np prop s h

/-- Witness for C4's universal part at a concrete `requested` slot. -/
theorem c4_cycle_detection_witness :
    exec 20 (.grp c4Mod) (.resolve [] "x")
        { injectSt0 with cache := [(([], "x"), .requested)] }
      = (some (.error (cycleErr (pathOf
            { injectSt0 with cache := [(([], "x"), .requested)] } [] "x"))),
         { injectSt0 with cache := [(([], "x"), .requested)] }) :=
  c4_cycle_detection.2 19 (.grp c4Mod) [] "x"
    { injectSt0 with cache := [(([], "x"), .requested)] } (by decide)

/-- C5 counterexample: for `{a: () => { throw new Error('boom') }}` the
second access throws `Construction failure: a` whose `cause` is absent —
the originally thrown error is not attached to the re-thrown error (the
code raises a bare `new Error(...)`), contradicting the claim that the
original error is preserved as the underlying cause. The factory indeed
runs only once. -/
theorem c5_counterexample :
    (readTop 20 c5Mod ["a"] (injectRun 20 [c5Mod]).2).1
      = some (.error (.errObj "boom" none))
  ∧ (readTop 20 c5Mod ["a"] (readTop 20 c5Mod ["a"] (injectRun 20 [c5Mod]).2).2).1
      = some (.error (.errObj "Construction failure: a" none))
  ∧ thrownCause (readTop 20 c5Mod ["a"]
      (readTop 20 c5Mod ["a"] (injectRun 20 [c5Mod]).2).2).1 = none
  ∧ countOf (readTop 20 c5Mod ["a"]
      (readTop 20 c5Mod ["a"] (injectRun 20 [c5Mod]).2).2).2 ["a"] = 1 := by
  have hm : mergedModule [c5Mod] = c5Mod := by
    simp [mergedModule, c5Mod, mergeSrc_cons, mergeSrc_nil, mergeVal, alookup, aset]
  simp only [injectRun, hm]
  decide

/-- C5 amended: once a key's slot caches an `Error`, every further access
throws a fresh `Error` whose message is `Construction failure: <path>` and
whose cause is absent (the original error stays only in the cache), with
no state change — so the factory is never invoked again. -/
theorem c5_failure_replay :
    ∀ (n : Nat) (root : MTree) (np : List String) (prop : String) (s : St)
      (m : String) (c : Option String),
      alookup s.cache (np, prop) = some (.stored (.errObj m c)) →
      exec (n + 1) root (.resolve np prop) s
        = (some (.error (.errObj ("Construction failure: " ++ pathOf s np prop) none)), s) := by
  intro n root np prop s m c h
  exact exec_resolve_failed n root np prop s m c h

/-- Witness for C5's amended statement at a concrete failed slot. -/
theorem c5_failure_replay_witness :
    exec 20 (.grp c5Mod) (.resolve [] "a")
        { injectSt0 with cache := [(([], "a"), .stored (.errObj "boom" none))] }
      = (some (.error (.errObj ("Construction failure: " ++ pathOf
            { injectSt0 with cache := [(([], "a"), .stored (.errObj "boom" none))] } [] "a") none)),
         { injectSt0 with cache := [(([], "a"), .stored (.errObj "boom" none))] }) :=
  c5_failure_replay 19 (.grp c5Mod) [] "a"
    { injectSt0 with cache := [(([], "a"), .stored (.errObj "boom" none))] } "boom" none (by decide)

/-- C9. For the nested module `{b: {c: () => { throw new Error('boom') }}}`
the first read of `b.c` throws the factory's error, and the second read
throws the cached construction failure — but its path is `.c`, not the
full dotted path `b.c` the spec requires: line 107 only tests the parent
path for truthiness and discards its content. -/
theorem c9_path_truncation :
    (readTop 20 c9Mod ["b", "c"] (injectRun 20 [c9Mod]).2).1
      = some (.error (.errObj "boom" none))
  ∧ (readTop 20 c9Mod ["b", "c"]
      (readTop 20 c9Mod ["b", "c"] (injectRun 20 [c9Mod]).2).2).1
      = some (.error (.errObj "Construction failure: .c" none)) := by
  have hm : mergedModule [c9Mod] = c9Mod := by
    simp [mergedModule, c9Mod, mergeSrc_cons, mergeSrc_nil, mergeVal, alookup, aset]
  simp only [injectRun, hm]
  decide

/-- C10. A factory whose first invocation throws a non-`Error` value: the
first access propagates the thrown value but records `undefined` in the
cache (line 125), so every subsequent access returns `undefined` without
throwing and without re-invoking the factory (the state, counters
included, does not move). The concrete part runs `{a: () => { throw 7 }}`. -/
theorem c10_nonerror_throw :
    (∀ (n : Nat) (root : MTree) (np : List String) (prop : String) (s s1 : St)
       (eg : Bool) (body : Exp) (e : JVal),
      alookup s.cache (np, prop) = none →
      alookup ((entriesAt root np).getD []) prop = some (.fac eg body) →
      exec n root (.evalExp (.containerRef (effOf s np)) body) (facCallSt s np prop)
        = (some (.error e), s1) →
      (∀ m c, e ≠ JVal.errObj m c) →
      exec (n + 1) root (.resolve np prop) s = (some (.error e), storeSt s1 np prop .undefV)
      ∧ (∀ n2 : Nat, exec (n2 + 1) root (.resolve np prop) (storeSt s1 np prop .undefV)
          = (some (.ok .undefV), storeSt s1 np prop .undefV)))
  ∧ ((readTop 20 c10Mod ["a"] (injectRun 20 [c10Mod]).2).1 = some (.error (.num 7))
     ∧ (readTop 20 c10Mod ["a"] (readTop 20 c10Mod ["a"] (injectRun 20 [c10Mod]).2).2).1
         = some (.ok .undefV)
     ∧ countOf (readTop 20 c10Mod ["a"]
         (readTop 20 c10Mod ["a"] (injectRun 20 [c10Mod]).2).2).2 ["a"] = 1) := by
  constructor
  · intro n root np prop s s1 eg body e hc hmod hbe hne
    have hcach : cachedOfThrown e = .undefV := by
      cases e with
      | errObj m c => exact absurd rfl (hne m c)
      | undefV => rfl
      | num m => rfl
      | containerRef q => rfl
    constructor
    · have h := exec_resolve_first_throw n root np prop s s1 eg body e hc hmod hbe
      rw [hcach] at h
      exact h
    · intro n2
      apply exec_resolve_stored
      · simp [storeSt, alookup_aset]
      · intro m c h
        exact JVal.noConfusion h
  · have hm : mergedModule [c10Mod] = c10Mod := by
      simp [mergedModule, c10Mod, mergeSrc_cons, mergeSrc_nil, mergeVal, alookup, aset]
    simp only [injectRun, hm]
    decide

/-- Witness for C10's universal part: `{a: () => { throw 7 }}` read at `a`
from the fresh state, then read again from the resulting state. -/
theorem c10_nonerror_throw_witness :
    exec 20 (.grp c10Mod) (.resolve [] "a") injectSt0
      = (some (.error (.num 7)), storeSt (facCallSt injectSt0 [] "a") [] "a" .undefV)
  ∧ exec 20 (.grp c10Mod) (.resolve [] "a") (storeSt (facCallSt injectSt0 [] "a") [] "a" .undefV)
      = (some (.ok .undefV), storeSt (facCallSt injectSt0 [] "a") [] "a" .undefV) :=
  ⟨(c10_nonerror_throw.1 19 (.grp c10Mod) [] "a" injectSt0 (facCallSt injectSt0 [] "a")
      false (.throwNum 7) (.num 7) (by decide) (by rfl) (by decide)
      (fun m c h => JVal.noConfusion h)).1,
   (c10_nonerror_throw.1 19 (.grp c10Mod) [] "a" injectSt0 (facCallSt injectSt0 [] "a")
      false (.throwNum 7) (.num 7) (by decide) (by rfl) (by decide)
      (fun m c h => JVal.noConfusion h)).2 19⟩

/-- C1 counterexample: in `{p: eager((ctx) => ctx.q), q: () => 1}` the
eager factory `p` reads `q` through the context during `inject`, so
building the container invokes the non-eager factory `q` once — not the
zero times the claim asserts for every non-eager key. -/
theorem c1_counterexample :
    countOf (injectRun 20 [c1Mod]).2 ["q"] = 1
  ∧ ¬ countOf (injectRun 20 [c1Mod]).2 ["q"] = 0 := by
  have hm : mergedModule [c1Mod] = c1Mod := by
    simp [mergedModule, c1Mod, eagerF, mergeSrc_cons, mergeSrc_nil, mergeVal, alookup, aset]
  simp only [injectRun, hm]
  decide

/-- C1 amended: when the merged module tree contains no eager factory,
building the container invokes no factory at all (every counter is 0);
the first access to a factory key invokes its factory exactly once
(whatever the body does); and a key whose slot caches a non-`Error` value
returns that identical value on every read, with no state change — so the
factory never runs more than once however often the key is read. -/
theorem c1_lazy_memoization :
    (∀ (fuel : Nat) (ms : List ModEntries) (kp : List String),
      noEagerL (mergedModule ms) = true → countOf (injectRun fuel ms).2 kp = 0)
  ∧ (∀ (n : Nat) (root : MTree) (np : List String) (prop : String) (s : St)
       (eg : Bool) (body : Exp),
      alookup s.cache (np, prop) = none →
      alookup ((entriesAt root np).getD []) prop = some (.fac eg body) →
      countOf (exec (n + 1) root (.resolve np prop) s).2 (np ++ [prop])
        = countOf s (np ++ [prop]) + 1)
  ∧ (∀ (n : Nat) (root : MTree) (np : List String) (prop : String) (s : St) (v : JVal),
      alookup s.cache (np, prop) = some (.stored v) → (∀ m c, v ≠ JVal.errObj m c) →
      exec (n + 1) root (.resolve np prop) s = (some (.ok v), s)) := by
  refine ⟨?_, ?_, ?_⟩
  · intro fuel ms kp hne
    have h := init_noEager fuel (.grp (mergedModule ms)) [] (mergedModule ms) hne injectSt0
    simp only [injectRun]
    rw [h]
    simp [countOf, injectSt0, alookup]
  · intro n root np prop s eg body hc hmod
    exact exec_resolve_first_count n root np prop s eg body hc hmod
  · intro n root np prop s v hv hne
    exact exec_resolve_stored n root np prop s v hv hne

/-- Witness for C1: the single non-eager module `{q: () => 1}` — zero
invocations after `inject`, one after the first resolve, and a cached
slot replays its value with the state untouched. -/
theorem c1_lazy_memoization_witness :
    countOf (injectRun 20 [cLazyMod]).2 ["q"] = 0
  ∧ countOf (exec 20 (.grp cLazyMod) (.resolve [] "q") injectSt0).2 (([] : List String) ++ ["q"])
      = countOf injectSt0 (([] : List String) ++ ["q"]) + 1
  ∧ exec 20 (.grp cLazyMod) (.resolve [] "q")
        { injectSt0 with cache := [(([], "q"), .stored (.num 1))] }
      = (some (.ok (.num 1)), { injectSt0 with cache := [(([], "q"), .stored (.num 1))] }) :=
  ⟨c1_lazy_memoization.1 20 [cLazyMod] ["q"]
     (by simp [mergedModule, cLazyMod, mergeSrc_cons, mergeSrc_nil, mergeVal, alookup, aset,
       noEagerL, noEagerT]),
   c1_lazy_memoization.2.1 19 (.grp cLazyMod) [] "q" injectSt0 false (.constI 1)
     (by decide) (by rfl),
   c1_lazy_memoization.2.2 19 (.grp cLazyMod) [] "q"
     { injectSt0 with cache := [(([], "q"), .stored (.num 1))] } (.num 1)
     (by decide) (fun m c h => JVal.noConfusion h)⟩

/-- C3 counterexample: for `{p: eager(() => 1), q: () => 2}`, `inject`
invokes `p` once, but its cache slot is still absent (`Empty`, not
`Value`) when `inject` returns, and the first read of `p` invokes the
factory a second time — `initializeEagerServices` calls `value(container)`
directly, not through `resolve`, and discards the result. -/
theorem c3_counterexample :
    countOf (injectRun 20 [c3Mod]).2 ["p"] = 1
  ∧ alookup (injectRun 20 [c3Mod]).2.cache ([], "p") = none
  ∧ countOf (readTop 20 c3Mod ["p"] (injectRun 20 [c3Mod]).2).2 ["p"] = 2 := by
  have hm : mergedModule [c3Mod] = c3Mod := by
    simp [mergedModule, c3Mod, eagerF, mergeSrc_cons, mergeSrc_nil, mergeVal, alookup, aset]
  simp only [injectRun, hm]
  decide

/-- C3 amended: for every module `{p: eager(() => v), q: () => ...}`,
eager initialization invokes `p` exactly once before `inject` returns,
passing the root container, and leaves the sibling non-eager factory
untouched — but it populates no cache entry (the final state carries only
the invocation bookkeeping of `p`), and a subsequent first read of `p`
invokes the factory a second time. -/
theorem c3_eager_direct_call :
    (∀ (n v2 : Nat) (bq : Exp),
      exec (n + 1 + 1 + 1) (.grp [("p", MTree.fac true (.constI v2)), ("q", MTree.fac false bq)])
          (.initList [] [("p", MTree.fac true (.constI v2)), ("q", MTree.fac false bq)]) injectSt0
        = (some (.ok .undefV),
           { injectSt0 with counts := [(["p"], 1)], args := [(["p"], [])] }))
  ∧ (∀ (n2 v2 : Nat) (bq : Exp),
      countOf (exec (n2 + 1) (.grp [("p", MTree.fac true (.constI v2)), ("q", MTree.fac false bq)])
          (.resolve [] "p")
          { injectSt0 with counts := [(["p"], 1)], args := [(["p"], [])] }).2 ["p"] = 2) := by
  constructor
  · intro n v2 bq
    simp [exec, initCallSt, injectSt0, countOf, alookup, aset]
  · intro n2 v2 bq
    have h := exec_resolve_first_count n2
      (.grp [("p", MTree.fac true (.constI v2)), ("q", MTree.fac false bq)]) [] "p"
      { injectSt0 with counts := [(["p"], 1)], args := [(["p"], [])] } true (.constI v2)
      (by decide) (by rfl)
    rw [List.nil_append] at h
    rw [h]
    decide

/-- C6 counterexample: enumerating the keys of
`inject({a: () => { throw new Error('boom') }, b: () => 1})` through the
descriptor-driven protocol (for..in / `Object.keys`, which the
`getOwnPropertyDescriptor` trap serves by resolving each key first)
throws the factory's error and has invoked `a`'s factory — contradicting
the claim that enumeration never invokes a factory, does not throw and
leaves every entry `Empty`. -/
theorem c6_counterexample :
    (forInKeys 20 c6Mod (injectRun 20 [c6Mod]).2).1
      = some (.error (.errObj "boom" none))
  ∧ countOf (forInKeys 20 c6Mod (injectRun 20 [c6Mod]).2).2 ["a"] = 1 := by
  have hm : mergedModule [c6Mod] = c6Mod := by
    simp [mergedModule, c6Mod, mergeSrc_cons, mergeSrc_nil, mergeVal, alookup, aset]
  simp only [injectRun, hm]
  decide

/-- C6 amended: key listing through the `ownKeys` trap and containment
through the `has` trap expose exactly the module's key set without
touching any state — after `inject`, both slots are still absent and both
counters zero — but for..in-style enumeration, which reads each property
descriptor, forces resolution: on the same container it invokes `a`'s
factory and throws its error. -/
theorem c6_enumeration :
    ownKeysTrap c6Mod (injectRun 20 [c6Mod]).2 = (["a", "b"], (injectRun 20 [c6Mod]).2)
  ∧ hasTrap c6Mod "a" (injectRun 20 [c6Mod]).2 = (true, (injectRun 20 [c6Mod]).2)
  ∧ hasTrap c6Mod "c" (injectRun 20 [c6Mod]).2 = (false, (injectRun 20 [c6Mod]).2)
  ∧ alookup (injectRun 20 [c6Mod]).2.cache ([], "a") = none
  ∧ alookup (injectRun 20 [c6Mod]).2.cache ([], "b") = none
  ∧ countOf (injectRun 20 [c6Mod]).2 ["a"] = 0
  ∧ countOf (injectRun 20 [c6Mod]).2 ["b"] = 0
  ∧ (forInKeys 20 c6Mod (injectRun 20 [c6Mod]).2).1
      = some (.error (.errObj "boom" none))
  ∧ countOf (forInKeys 20 c6Mod (injectRun 20 [c6Mod]).2).2 ["a"] = 1 := by
  have hm : mergedModule [c6Mod] = c6Mod := by
    simp [mergedModule, c6Mod, mergeSrc_cons, mergeSrc_nil, mergeVal, alookup, aset]
  simp only [injectRun, hm]
  decide

/-- C7. Root-context threading: over any modules and any sequence of
property-path reads after `inject`, every factory invocation logged in
the state received the root container (`containerRef []`, the object
`inject` returns) as its context argument — never a nested subtree proxy.
Concretely, a factory two groups deep can read the root-level sibling
`q` and gets its value. -/
theorem c7_root_context :
    (∀ (fuel : Nat) (ms : List ModEntries) (ops : List (List String)),
      ((runReads fuel (mergedModule ms) ops (injectRun fuel ms).2).args.all
        (fun a => a.2.isEmpty)) = true)
  ∧ (readTop 30 c7Mod ["g", "h", "p"] (injectRun 30 [c7Mod]).2).1
      = some (.ok (.num 5)) := by
  constructor
  · intro fuel ms ops
    have h1 : InvSt (injectRun fuel ms).2 := by
      simp only [injectRun]
      exact (exec_inv fuel (.grp (mergedModule ms)) (.initList [] (mergedModule ms))
        injectSt0 invSt_injectSt0 trivial).1
    have h2 : InvSt (runReads fuel (mergedModule ms) ops (injectRun fuel ms).2) :=
      runReads_invSt fuel (mergedModule ms) ops _ h1
    rw [List.all_eq_true]
    intro a ha
    have h3 := h2.2.2.2 a ha
    rw [h3]
    rfl
  · have hm : mergedModule [c7Mod] = c7Mod := by
      simp [mergedModule, c7Mod, mergeSrc_cons, mergeSrc_nil, mergeVal, alookup, aset]
    simp only [injectRun, hm]
    decide

/-- C8 counterexample: running `inject`'s merge phase on the heap where
`m1 = {a: {x: f10}}` (group at address 2) and `m2 = {a: {y: f11}}`, the
nested group object of the caller-supplied `m1` ends up holding `y` as
well — `inject` mutated an input module's subtree, because the
accumulator captured `m1`'s group by reference and `merge` wrote `m2`'s
entries into it in place. -/
theorem c8_counterexample :
    (injectMergeHeap 20 c8Heap 0 [1, 3]).map (fun h => alookup h 2)
      = some (some [("x", HVal.fn 10), ("y", HVal.fn 11)])
  ∧ alookup c8Heap 2 = some [("x", HVal.fn 10)] := by
  decide

/-- C8 amended: the merge phase of `inject` never writes into the later
(source) module — `m2`'s objects at addresses 3 and 4 are unchanged — and
leaves the top-level object of the earlier module unchanged as well, but
it does mutate nested groups of earlier modules: `m1`'s group object
gains the later module's key `y` in place, and the accumulator shares
that very object. -/
theorem c8_merge_mutation :
    (injectMergeHeap 20 c8Heap 0 [1, 3]).map (fun h => (alookup h 3, alookup h 4))
      = some (some [("a", HVal.ref 4)], some [("y", HVal.fn 11)])
  ∧ (injectMergeHeap 20 c8Heap 0 [1, 3]).map (fun h => alookup h 1)
      = some (some [("a", HVal.ref 2)])
  ∧ (injectMergeHeap 20 c8Heap 0 [1, 3]).map (fun h => alookup h 2)
      = some (some [("x", HVal.fn 10), ("y", HVal.fn 11)])
  ∧ (injectMergeHeap 20 c8Heap 0 [1, 3]).map (fun h => alookup h 0)
      = some (some [("a", HVal.ref 2)]) := by
  refine ⟨by decide, by decide, by decide, by decide⟩
